import Mathlib

/- Shallow embedding of the station-name vertical-crossword search program
   (create_index.py and station_search_gui.py).  Python strings are modelled
   as lists of characters, pandas data frames as lists of records in row
   order, and the positional indexes (nested dicts of lists) as functions
   from offset and character to the bucket of record ids, where a record id
   is the row position in the corpus, exactly as in create_index.py. -/

/-- jaconv.kata2hira: folds the katakana code points U+30A1..U+30F6 together
with the iteration marks U+30FD and U+30FE onto their hiragana counterparts
(codepoint offset 0x60); every other character is unchanged. -/
def kata2hira (c : Char) : Char :=
  if (0x30A1 ≤ c.toNat ∧ c.toNat ≤ 0x30F6) ∨ c.toNat = 0x30FD ∨ c.toNat = 0x30FE then
    Char.ofNat (c.toNat - 0x60)
  else c

/-- Characters kept by the folded-mode character class of
normalize_search_string: hiragana U+3041..U+3093, the long-vowel mark
U+30FC, and the ideographs U+4E00..U+9FAF. -/
def isHiraKanji (c : Char) : Bool :=
  (0x3041 ≤ c.toNat && c.toNat ≤ 0x3093) || c.toNat == 0x30FC
    || (0x4E00 ≤ c.toNat && c.toNat ≤ 0x9FAF)

/-- Characters kept by the script-preserving character class of
normalize_search_string: hiragana U+3041..U+3093, katakana U+30A1..U+30FE,
the long-vowel mark U+30FC, and the ideographs U+4E00..U+9FAF. -/
def isMixedKept (c : Char) : Bool :=
  (0x3041 ≤ c.toNat && c.toNat ≤ 0x3093) || (0x30A1 ≤ c.toNat && c.toNat ≤ 0x30FE)
    || c.toNat == 0x30FC || (0x4E00 ≤ c.toNat && c.toNat ≤ 0x9FAF)

/-- normalize_search_string from station_search_gui.py: empty input gives
the empty string; in script-preserving mode the mixed character class is
kept; in folded mode the whole string is folded by kata2hira first and the
hiragana/ideograph class is kept; finally the result is truncated to the
first 20 characters. -/
def normalize_search_string (text : List Char) (include_katakana : Bool) : List Char :=
  if text = [] then []
  else if include_katakana then (text.filter isMixedKept).take 20
  else ((text.map kata2hira).filter isHiraKanji).take 20

/-- One corpus row: the display name and the region code, plus the opaque
payload columns that the search code threads through to result rows. -/
structure Station where
  station_name : List Char
  pref_cd : Nat
  prefecture : String
  operator_name : String
  route_name : String
deriving DecidableEq, Repr

/-- The per-mode normalized form of a record name used by the index builder
and by the corpus scans: jaconv.kata2hira of the whole name when katakana
are merged into hiragana, the raw name when katakana are preserved. -/
def normName (include_katakana : Bool) (s : Station) : List Char :=
  if include_katakana then s.station_name else s.station_name.map kata2hira

/-- The per-mode normalization of a single query character, as computed at
the call sites of the index lookup (search_char in search_and_analyze_fast). -/
def normChar (include_katakana : Bool) (c : Char) : Char :=
  if include_katakana then c else kata2hira c

/-- A positional index: offset and character to the bucket of record ids.
Missing buckets are the empty list, as in the Python membership tests. -/
abbrev PosIndex := Nat → Char → List Nat

def emptyIndex : PosIndex := fun _ _ => []

/-- Appending one record id to the bucket at (pos, c), the defaultdict
append of create_index.py. -/
def indexInsert (ix : PosIndex) (pos : Nat) (c : Char) (i : Nat) : PosIndex :=
  fun p ch => if p = pos ∧ ch = c then ix p ch ++ [i] else ix p ch

/-- The inner loop of create_station_index: insert record id i at every
(offset, character) of the (already mode-normalized) name, starting at
offset pos. -/
def indexName (ix : PosIndex) (i : Nat) (pos : Nat) : List Char → PosIndex
  | [] => ix
  | c :: rest => indexName (indexInsert ix pos c i) i (pos + 1) rest

/-- The outer loop of create_station_index over the corpus rows, idx being
the running row position. -/
def buildFrom (kk : Bool) (ix : PosIndex) (idx : Nat) : List Station → PosIndex
  | [] => ix
  | s :: rest => buildFrom kk (indexName ix idx 0 (normName kk s)) (idx + 1) rest

/-- create_station_index from create_index.py, parameterized by the mode:
kk = false builds the hiragana (folded) index from kata2hira of each name,
kk = true builds the katakana (script-preserving) index from the raw name.
The source builds both indexes in one pass over the rows; per mode the
resulting buckets are the ones built here. -/
def create_station_index (corpus : List Station) (kk : Bool) : PosIndex :=
  buildFrom kk emptyIndex 0 corpus

/-- A matched record together with the character actually found on the
record at the matched offset (the actual_char field the Python code adds to
the row dict). -/
structure StationHit where
  station : Station
  actual_char : Char
deriving DecidableEq, Repr

/-- find_stations_by_index from station_search_gui.py: walk the bucket at
(position, char); skip ids at or beyond the table length; skip records
whose name is shorter than position+1; keep a record only if its character
at the position folds (kata2hira) to the same character as the folded
search character, recording that character as actual_char. -/
def find_stations_by_index (station_index : PosIndex) (char : Char) (position : Nat)
    (df : List Station) : List StationHit :=
  (station_index position char).filterMap (fun idx =>
    (df[idx]?).bind (fun st =>
      (st.station_name[position]?).bind (fun a =>
        if kata2hira a = kata2hira char then some ⟨st, a⟩ else none)))

/-- find_all_chars_at_position from station_search_gui.py: scan the given
rows and keep those whose mode-normalized name has the mode-normalized
search character at the position; actual_char is taken from the original
name at that position (falling back to the search character when the raw
name is too short, a branch that is unreachable because normalization is
character-wise). -/
def find_all_chars_at_position (df : List Station) (char : Char) (position : Nat)
    (include_katakana : Bool) : List StationHit :=
  df.filterMap (fun st =>
    if (normName include_katakana st)[position]? = some (normChar include_katakana char) then
      some ⟨st, (st.station_name[position]?).getD char⟩
    else none)

/-- The deduplication key used by the priority combination step:
(station_name, pref_cd). -/
def hitKey (h : StationHit) : List Char × Nat := (h.station.station_name, h.station.pref_cd)

/-- The per-character combination step inside
find_character_positions_cross_with_priority: first the matches from the
selected rows (skipped when the selection is empty), then the nationwide
matches whose (name, pref_cd) key is not among the keys of the selected
matches.  The key set is computed once from the selected matches and is not
updated while appending, exactly as in the source. -/
def priorityCombined (df_all df_selected : List Station) (char : Char) (pos : Nat)
    (include_katakana : Bool) : List StationHit :=
  let char_stations :=
    if df_selected = [] then []
    else find_all_chars_at_position df_selected char pos include_katakana
  let all_stations := find_all_chars_at_position df_all char pos include_katakana
  let existing_keys := char_stations.map hitKey
  char_stations ++ all_stations.filter (fun s => decide (hitKey s ∉ existing_keys))

/-- One accepted offset of the corpus-scan resolver: the offset and, per
query character in query order, the combined match list. -/
structure PositionResult where
  position : Nat
  matching_stations : List (Char × List StationHit)
deriving DecidableEq, Repr

/-- The per-offset character loop of
find_character_positions_cross_with_priority: build the combined list for
each query character in order, failing the whole offset as soon as one
combined list is empty. -/
def collectChars (df_all df_selected : List Station) (kk : Bool) (pos : Nat) :
    List Char → Option (List (Char × List StationHit))
  | [] => some []
  | c :: rest =>
    if priorityCombined df_all df_selected c pos kk = [] then none
    else
      match collectChars df_all df_selected kk pos rest with
      | none => none
      | some r => some ((c, priorityCombined df_all df_selected c pos kk) :: r)

/-- find_character_positions_cross_with_priority from station_search_gui.py:
empty query is not resolvable; otherwise every offset 0..19 is tried and
each offset at which every query character has a non-empty combined list
contributes one PositionResult.  The Python dict result is modelled by the
list of accepted offsets (cross_possible iff the list is non-empty). -/
def find_character_positions_cross_with_priority (df_all df_selected : List Station)
    (search_string : List Char) (kk : Bool) : List PositionResult :=
  if search_string = [] then []
  else (List.range 20).filterMap (fun pos =>
    (collectChars df_all df_selected kk pos search_string).map
      (fun ms => PositionResult.mk pos ms))

/-- One flat display row.  search_scope is true for the priority tag
(selected region) and false for the nationwide tag. -/
structure ResultRow where
  station_name : List Char
  prefecture : String
  operator_name : String
  route_name : String
  search_char : Char
  char_position : Nat
  search_scope : Bool
deriving DecidableEq, Repr

/-- The provenance tag: priority iff some prefecture codes are selected and
the record's code is among them. -/
def scopeOf (codes : List Nat) (pref : Nat) : Bool :=
  decide (codes ≠ [] ∧ pref ∈ codes)

/-- Assembling one display row from a record, the displayed character and
the zero-based offset (stored one-based). -/
def mkRow (st : Station) (ac : Char) (pos : Nat) (codes : List Nat) : ResultRow :=
  ⟨st.station_name, st.prefecture, st.operator_name, st.route_name,
    ac, pos + 1, scopeOf codes st.pref_cd⟩

/-- The row projection of search_and_analyze: offsets in accepted order,
then query characters in query order, then matches in combined-list order;
the displayed character is the hit's actual_char. -/
def projectRows (codes : List Nat) (prs : List PositionResult) : List ResultRow :=
  prs.flatMap (fun pr => pr.matching_stations.flatMap (fun pc =>
    pc.2.map (fun h => mkRow h.station h.actual_char pr.position codes)))

/-- search_and_analyze from station_search_gui.py (corpus-scan path):
empty corpus or empty normalized query gives the empty result; otherwise
the selected rows are the rows whose pref_cd is among the selected codes
(empty when no codes are selected), and the resolver output is projected
to rows. -/
def search_and_analyze (df : List Station) (search_string : List Char)
    (codes : List Nat) (kk : Bool) : List ResultRow :=
  if df = [] then []
  else
    let q := normalize_search_string search_string kk
    if q = [] then []
    else
      let df_selected :=
        if codes = [] then [] else df.filter (fun st => decide (st.pref_cd ∈ codes))
      projectRows codes (find_character_positions_cross_with_priority df df_selected q kk)

/-- The per-offset character loop of search_and_analyze_fast: look up each
query character (mode-normalized) in the index, failing the offset as soon
as one lookup is empty. -/
def fastCollect (ix : PosIndex) (df : List Station) (kk : Bool) (pos : Nat) :
    List Char → Option (List (List StationHit))
  | [] => some []
  | c :: rest =>
    if find_stations_by_index ix (normChar kk c) pos df = [] then none
    else
      match fastCollect ix df kk pos rest with
      | none => none
      | some r => some (find_stations_by_index ix (normChar kk c) pos df :: r)

/-- The row emission of search_and_analyze_fast for one accepted offset:
for each (match list, query character) pair in query order, one row per
match, with the displayed character re-read from the raw name at the offset
(falling back to the query character when the name is too short). -/
def fastRows (codes : List Nat) (pos : Nat) (pairs : List (List StationHit × Char)) :
    List ResultRow :=
  pairs.flatMap (fun pr => pr.1.map (fun h =>
    mkRow h.station ((h.station.station_name[pos]?).getD pr.2) pos codes))

/-- search_and_analyze_fast from station_search_gui.py (indexed path):
empty corpus or empty normalized query gives the empty result; otherwise
the mode picks the index, every offset 0..19 is tried, and each accepted
offset emits its rows. -/
def search_and_analyze_fast (df : List Station) (search_string : List Char)
    (codes : List Nat) (hiragana_index katakana_index : PosIndex) (kk : Bool) :
    List ResultRow :=
  if df = [] then []
  else
    let q := normalize_search_string search_string kk
    if q = [] then []
    else
      let ix := if kk then katakana_index else hiragana_index
      (List.range 20).flatMap (fun pos =>
        match fastCollect ix df kk pos q with
        | none => []
        | some lists => fastRows codes pos (lists.zip q))

/-- Modelled from claim C5's wording: the Normalizer applied without the
20-character truncation (folding first in folded mode, then stripping every
character outside the permitted alphabet).  Used only to compare the
claimed builder normalization with the actual one. -/
def normalizeNoTruncation (text : List Char) (include_katakana : Bool) : List Char :=
  if include_katakana then text.filter isMixedKept
  else (text.map kata2hira).filter isHiraKanji

/-- Sample record: name あ, prefecture code 27 (not selected in examples). -/
def stA27 : Station := ⟨[ 'あ' ], 27, "Osaka", "op", "line"⟩

/-- Sample record: name あ, prefecture code 13 (selected in examples). -/
def stA13 : Station := ⟨[ 'あ' ], 13, "Tokyo", "op", "line"⟩

/-- Sample record whose name is a single Latin letter, which the Normalizer
strips but the index builder indexes. -/
def stLatinA : Station := ⟨[ 'A' ], 1, "p", "op", "line"⟩

/-- Two distinct sample records sharing name and prefecture code. -/
def stDupX : Station := ⟨[ 'あ' ], 1, "p", "op", "line-a"⟩

/-- Second of the two distinct records sharing name and prefecture code. -/
def stDupY : Station := ⟨[ 'あ' ], 1, "p", "op", "line-b"⟩

/-- A character kept by the folded-mode class is left unchanged by
kata2hira (the folded alphabet is disjoint from the katakana fold domain). -/
theorem kata2hira_fixed_of_kept {c : Char} (h : isHiraKanji c = true) : kata2hira c = c := by
  simp only [isHiraKanji, Bool.or_eq_true, Bool.and_eq_true, decide_eq_true_eq,
    beq_iff_eq] at h
  have hn : ¬ ((0x30A1 ≤ c.toNat ∧ c.toNat ≤ 0x30F6) ∨ c.toNat = 0x30FD ∨ c.toNat = 0x30FE) := by
    omega
  simp [kata2hira, hn]

/-- Characters of a folded-mode normalized query are in the folded class. -/
theorem mem_normalize_folded {c : Char} {s : List Char}
    (h : c ∈ normalize_search_string s false) : isHiraKanji c = true := by
  unfold normalize_search_string at h
  by_cases hs : s = []
  · simp [hs] at h
  · simp only [hs, if_false, Bool.false_eq_true] at h
    exact (List.mem_filter.mp (List.take_subset _ _ h)).2

/-- Characters of a preserved-mode normalized query are in the mixed class. -/
theorem mem_normalize_mixed {c : Char} {s : List Char}
    (h : c ∈ normalize_search_string s true) : isMixedKept c = true := by
  unfold normalize_search_string at h
  by_cases hs : s = []
  · simp [hs] at h
  · simp only [hs, if_false, if_true] at h
    exact (List.mem_filter.mp (List.take_subset _ _ h)).2

/-- Query characters are fixed points of the per-character normalization
applied at lookup time. -/
theorem normChar_fixed {c : Char} {s : List Char} {kk : Bool}
    (h : c ∈ normalize_search_string s kk) : normChar kk c = c := by
  cases kk
  · simp [normChar, kata2hira_fixed_of_kept (mem_normalize_folded h)]
  · simp [normChar]

/-- The normalized query never exceeds 20 characters. -/
theorem normalize_length_le (s : List Char) (kk : Bool) :
    (normalize_search_string s kk).length ≤ 20 := by
  unfold normalize_search_string
  by_cases hs : s = [] <;> cases kk <;> simp [hs, List.length_take]

/-- A string of kept characters of length at most 20 is its own
normalization. -/
theorem normalize_eq_self (t : List Char) (kk : Bool)
    (hkept : ∀ c ∈ t, (if kk then isMixedKept c else isHiraKanji c) = true)
    (hlen : t.length ≤ 20) :
    normalize_search_string t kk = t := by
  by_cases ht : t = []
  · simp [normalize_search_string, ht]
  · cases kk
    · have hmap : t.map kata2hira = t := by
        have h1 : t.map kata2hira = t.map id :=
          List.map_congr_left
            (fun c hc => kata2hira_fixed_of_kept (by simpa using hkept c hc))
        rw [h1, List.map_id]
      simp only [normalize_search_string, ht, if_false, Bool.false_eq_true]
      rw [hmap, List.filter_eq_self.mpr (fun c hc => by simpa using hkept c hc),
        List.take_of_length_le hlen]
    · simp only [normalize_search_string, ht, if_false, if_true]
      rw [List.filter_eq_self.mpr (fun c hc => by simpa using hkept c hc),
        List.take_of_length_le hlen]

/-- Normalization is idempotent. -/
theorem normalize_search_string_idem (s : List Char) (kk : Bool) :
    normalize_search_string (normalize_search_string s kk) kk
      = normalize_search_string s kk := by
  apply normalize_eq_self
  · intro c hc
    cases kk
    · simpa using mem_normalize_folded hc
    · simpa using mem_normalize_mixed hc
  · exact normalize_length_le s kk

/-- Evaluating the insertion loop over one name: the bucket at (p, c)
gains the id i exactly when the name, laid out from offset pos, has
character c at offset p. -/
theorem indexName_apply (name : List Char) :
    ∀ (ix : PosIndex) (i pos p : Nat) (c : Char),
      indexName ix i pos name p c
        = ix p c ++ (if pos ≤ p ∧ name[p - pos]? = some c then [i] else []) := by
  induction name with
  | nil =>
    intro ix i pos p c
    simp [indexName]
  | cons c0 rest ih =>
    intro ix i pos p c
    rw [indexName, ih]
    unfold indexInsert
    by_cases hp : p = pos
    · have h1 : ¬ (pos + 1 ≤ p) := by omega
      have h2 : p - pos = 0 := by omega
      by_cases hc : c = c0
      · have h3 : p = pos ∧ c = c0 := ⟨hp, hc⟩
        simp [h1, h2, hp, hc, h3]
      · have h3 : ¬ (p = pos ∧ c = c0) := fun h => hc h.2
        have h4 : c0 ≠ c := fun h => hc h.symm
        simp [h1, h2, hp, h3, h4, hc]
    · have h3 : ¬ (p = pos ∧ c = c0) := fun h => hp h.1
      by_cases hle : pos ≤ p
      · have h4 : pos + 1 ≤ p := by omega
        have h5 : p - pos = (p - (pos + 1)) + 1 := by omega
        simp [h3, h4, h5, hle]
      · have h4 : ¬ (pos + 1 ≤ p) := by omega
        simp [h3, h4, hle]

/-- Evaluating the corpus loop of the builder: the bucket at (p, c) is the
initial bucket followed by the row positions (from idx) of the records
whose mode-normalized name has character c at offset p, in row order. -/
theorem buildFrom_apply (kk : Bool) (corpus : List Station) :
    ∀ (ix : PosIndex) (idx p : Nat) (c : Char),
      buildFrom kk ix idx corpus p c
        = ix p c ++ ((corpus.enumFrom idx).filter
            (fun r => decide ((normName kk r.2)[p]? = some c))).map Prod.fst := by
  induction corpus with
  | nil =>
    intro ix idx p c
    simp [buildFrom]
  | cons s rest ih =>
    intro ix idx p c
    rw [buildFrom, ih, indexName_apply]
    simp only [List.enumFrom_cons, List.filter_cons]
    by_cases hs : (normName kk s)[p]? = some c
    · simp [hs, List.append_assoc]
    · simp [hs]

/-- The built bucket at (p, c) consists exactly of the row positions of
the records whose mode-normalized name has character c at offset p, in
corpus order. -/
theorem create_station_index_apply (corpus : List Station) (kk : Bool) (p : Nat) (c : Char) :
    create_station_index corpus kk p c
      = ((corpus.enum.filter (fun r => decide ((normName kk r.2)[p]? = some c))).map
          Prod.fst) := by
  unfold create_station_index
  rw [buildFrom_apply]
  simp [emptyIndex, List.enum]

/-- filterMap of a guarded some is map over filter. -/
theorem filterMap_if_eq {α β : Type} (l : List α) (p : α → Prop) [DecidablePred p]
    (f : α → β) :
    l.filterMap (fun a => if p a then some (f a) else none)
      = (l.filter (fun a => decide (p a))).map f := by
  induction l with
  | nil => rfl
  | cons a t ih =>
    by_cases h : p a <;> simp [List.filterMap_cons, List.filter_cons, h, ih]

/-- The corpus scan is the filter of the rows whose mode-normalized name
has the mode-normalized character at the offset, each row paired with its
raw character at the offset. -/
theorem find_all_chars_eq (df : List Station) (c : Char) (pos : Nat) (kk : Bool) :
    find_all_chars_at_position df c pos kk
      = (df.filter
            (fun st => decide ((normName kk st)[pos]? = some (normChar kk c)))).map
          (fun st => ⟨st, (st.station_name[pos]?).getD c⟩) :=
  filterMap_if_eq df _ _

/-- Resolving a filtered bucket of row positions through the table it was
built from: the positions line up with the rows, so the id walk is the
row filter. -/
theorem enumFilter_filterMap (df : List Station) (Q : Station → Bool) {β : Type}
    (G : Station → Option β) :
    ∀ (l : List Station) (n : Nat), df.drop n = l →
      ((((l.enumFrom n).filter (fun r => Q r.2)).map Prod.fst).filterMap
          (fun i => (df[i]?).bind G))
        = l.filterMap (fun s => if Q s then G s else none) := by
  intro l
  induction l with
  | nil =>
    intro n h
    simp
  | cons s t ih =>
    intro n h
    have hget : df[n]? = some s := by
      have h0 : (df.drop n)[0]? = some s := by rw [h]; simp
      rw [List.getElem?_drop] at h0
      simpa using h0
    have hdrop : df.drop (n + 1) = t := by
      have h1 : (df.drop n).drop 1 = df.drop (n + 1) := List.drop_drop 1 n df
      rw [h] at h1
      simpa using h1.symm
    rw [List.enumFrom_cons, List.filter_cons]
    by_cases hq : Q s = true
    · cases hG : G s with
      | none => simp [hq, hget, hG, ih (n + 1) hdrop]
      | some b => simp [hq, hget, hG, ih (n + 1) hdrop]
    · simp [hq, ih (n + 1) hdrop]

/-- On the index built from the same table, the indexed lookup (including
its re-verification step) computes exactly the corpus scan, for any search
character that is a fixed point of the fold in folded mode (every
normalized query character is one). -/
theorem find_stations_by_index_built (df : List Station) (kk : Bool) (c : Char) (pos : Nat)
    (hc : kk = false → kata2hira c = c) :
    find_stations_by_index (create_station_index df kk) c pos df
      = find_all_chars_at_position df c pos kk := by
  unfold find_stations_by_index
  rw [create_station_index_apply]
  simp only [List.enum]
  rw [enumFilter_filterMap df (fun s => decide ((normName kk s)[pos]? = some c))
    (fun st => (st.station_name[pos]?).bind
      (fun a => if kata2hira a = kata2hira c then some (StationHit.mk st a) else none))
    df 0 (List.drop_zero df)]
  unfold find_all_chars_at_position
  apply List.filterMap_congr
  intro st _
  by_cases hq : (normName kk st)[pos]? = some c
  · cases kk
    · have hcc : kata2hira c = c := hc rfl
      have hq2 := hq
      simp only [normName, Bool.false_eq_true, if_false, List.getElem?_map] at hq2
      cases ha : st.station_name[pos]? with
      | none => rw [ha] at hq2; simp at hq2
      | some a =>
        rw [ha] at hq2
        simp only [Option.map_some'] at hq2
        have ha2 : kata2hira a = c := Option.some_inj.mp hq2
        have hnc : normChar false c = c := by simp [normChar, hcc]
        simp [hq, hnc, ha, ha2, hcc]
    · have hnc : normChar true c = c := by simp [normChar]
      have ha : st.station_name[pos]? = some c := by
        simpa [normName] using hq
      simp [hq, hnc, ha]
  · have hnc : normChar kk c = c := by
      cases kk
      · simp [normChar, hc rfl]
      · simp [normChar]
    simp [hq, hnc]

/-- The selection-emptiness guard collapses: the priority part is always
the scan of the selected rows (the scan of no rows is empty). -/
theorem priorityCombined_eq (df_all df_selected : List Station) (c : Char) (pos : Nat)
    (kk : Bool) :
    priorityCombined df_all df_selected c pos kk
      = find_all_chars_at_position df_selected c pos kk
        ++ (find_all_chars_at_position df_all c pos kk).filter
            (fun s => decide (hitKey s ∉
              (find_all_chars_at_position df_selected c pos kk).map hitKey)) := by
  unfold priorityCombined
  by_cases h : df_selected = []
  · subst h
    simp [find_all_chars_at_position]
  · simp [h]


/-- Unfolding one step of the per-offset loop of the corpus-scan resolver. -/
theorem collectChars_cons_isSome (df_all df_selected : List Station) (kk : Bool) (pos : Nat)
    (c : Char) (rest : List Char) :
    (collectChars df_all df_selected kk pos (c :: rest)).isSome = true
      ↔ priorityCombined df_all df_selected c pos kk ≠ []
        ∧ (collectChars df_all df_selected kk pos rest).isSome = true := by
  simp only [collectChars]
  by_cases hcs : priorityCombined df_all df_selected c pos kk = []
  · simp [hcs]
  · rw [if_neg hcs]
    cases hr : collectChars df_all df_selected kk pos rest with
    | none => simp [hcs, hr]
    | some r => simp [hcs]

/-- The per-offset loop of the corpus-scan resolver succeeds iff every
query character has a non-empty combined list at the offset. -/
theorem collectChars_isSome_iff (df_all df_selected : List Station) (kk : Bool) (pos : Nat) :
    ∀ q : List Char,
      (collectChars df_all df_selected kk pos q).isSome = true
        ↔ ∀ c ∈ q, priorityCombined df_all df_selected c pos kk ≠ [] := by
  intro q
  induction q with
  | nil => simp [collectChars]
  | cons c rest ih =>
    rw [collectChars_cons_isSome, ih]
    constructor
    · intro h c2 hc2
      rcases List.mem_cons.mp hc2 with h3 | h3
      · rw [h3]
        exact h.1
      · exact h.2 c2 h3
    · intro h
      exact ⟨h c (List.mem_cons_self c rest),
        fun c2 hc2 => h c2 (List.mem_cons_of_mem c hc2)⟩

/-- The per-offset loop, when it succeeds, returns per query character in
query order the combined list of that character, each non-empty. -/
theorem collectChars_eq_some (df_all df_selected : List Station) (kk : Bool) (pos : Nat) :
    ∀ (q : List Char) (ms : List (Char × List StationHit)),
      collectChars df_all df_selected kk pos q = some ms →
        ms = q.map (fun c => (c, priorityCombined df_all df_selected c pos kk))
          ∧ ∀ pc ∈ ms, pc.2 ≠ [] := by
  intro q
  induction q with
  | nil =>
    intro ms h
    simp only [collectChars, Option.some_inj] at h
    subst h
    simp
  | cons c rest ih =>
    intro ms h
    simp only [collectChars] at h
    by_cases hcs : priorityCombined df_all df_selected c pos kk = []
    · simp [hcs] at h
    · rw [if_neg hcs] at h
      cases hr : collectChars df_all df_selected kk pos rest with
      | none =>
        rw [hr] at h
        simp at h
      | some r =>
        rw [hr] at h
        simp only [Option.some_inj] at h
        obtain ⟨h1, h2⟩ := ih r hr
        subst h
        refine ⟨by simp [h1], ?_⟩
        intro pc hpc
        rcases List.mem_cons.mp hpc with h3 | h3
        · rw [h3]
          exact hcs
        · exact h2 pc h3

/-- Unfolding one step of the per-offset loop of the indexed resolver. -/
theorem fastCollect_cons_isSome (ix : PosIndex) (df : List Station) (kk : Bool) (pos : Nat)
    (c : Char) (rest : List Char) :
    (fastCollect ix df kk pos (c :: rest)).isSome = true
      ↔ find_stations_by_index ix (normChar kk c) pos df ≠ []
        ∧ (fastCollect ix df kk pos rest).isSome = true := by
  simp only [fastCollect]
  by_cases hcs : find_stations_by_index ix (normChar kk c) pos df = []
  · simp [hcs]
  · rw [if_neg hcs]
    cases hr : fastCollect ix df kk pos rest with
    | none => simp [hcs, hr]
    | some r => simp [hcs]

/-- The per-offset loop of the indexed resolver succeeds iff every query
character has a non-empty lookup at the offset. -/
theorem fastCollect_isSome_iff (ix : PosIndex) (df : List Station) (kk : Bool) (pos : Nat) :
    ∀ q : List Char,
      (fastCollect ix df kk pos q).isSome = true
        ↔ ∀ c ∈ q, find_stations_by_index ix (normChar kk c) pos df ≠ [] := by
  intro q
  induction q with
  | nil => simp [fastCollect]
  | cons c rest ih =>
    rw [fastCollect_cons_isSome, ih]
    constructor
    · intro h c2 hc2
      rcases List.mem_cons.mp hc2 with h3 | h3
      · rw [h3]
        exact h.1
      · exact h.2 c2 h3
    · intro h
      exact ⟨h c (List.mem_cons_self c rest),
        fun c2 hc2 => h c2 (List.mem_cons_of_mem c hc2)⟩

/-- The per-offset loop of the indexed resolver, when it succeeds, returns
per query character in query order the lookup of that character. -/
theorem fastCollect_eq_some (ix : PosIndex) (df : List Station) (kk : Bool) (pos : Nat) :
    ∀ (q : List Char) (lists : List (List StationHit)),
      fastCollect ix df kk pos q = some lists →
        lists = q.map (fun c => find_stations_by_index ix (normChar kk c) pos df) := by
  intro q
  induction q with
  | nil =>
    intro lists h
    simp only [fastCollect, Option.some_inj] at h
    subst h
    simp
  | cons c rest ih =>
    intro lists h
    simp only [fastCollect] at h
    by_cases hcs : find_stations_by_index ix (normChar kk c) pos df = []
    · simp [hcs] at h
    · rw [if_neg hcs] at h
      cases hr : fastCollect ix df kk pos rest with
      | none =>
        rw [hr] at h
        simp at h
      | some r =>
        rw [hr] at h
        simp only [Option.some_inj] at h
        subst h
        simp [ih r hr]

/-- Zipping a mapped copy with the original list pairs each element with
its image. -/
theorem map_zip_self {α β : Type} (f : α → β) :
    ∀ q : List α, (q.map f).zip q = q.map (fun c => (f c, c)) := by
  intro q
  induction q with
  | nil => rfl
  | cons c rest ih => simp [ih]

/-- The positions of the accepted offset results are the offsets at which
the per-offset loop succeeds, in ascending order. -/
theorem filterMap_mk_positions (F : Nat → Option (List (Char × List StationHit))) :
    ∀ l : List Nat,
      ((l.filterMap (fun p => (F p).map (fun ms => PositionResult.mk p ms))).map
          PositionResult.position)
        = l.filter (fun p => (F p).isSome) := by
  intro l
  induction l with
  | nil => rfl
  | cons p t ih =>
    cases hF : F p with
    | none => simp [List.filterMap_cons, List.filter_cons, hF, ih]
    | some ms => simp [List.filterMap_cons, List.filter_cons, hF, ih]

/-- Membership in the corpus-scan resolver output for a non-empty query:
an accepted offset result is exactly an offset below 20 whose per-offset
loop succeeded with those matches. -/
theorem mem_cross_with_priority_iff (df_all df_selected : List Station)
    (q : List Char) (kk : Bool) (pr : PositionResult) (hq : q ≠ []) :
    pr ∈ find_character_positions_cross_with_priority df_all df_selected q kk
      ↔ pr.position < 20
        ∧ collectChars df_all df_selected kk pr.position q = some pr.matching_stations := by
  unfold find_character_positions_cross_with_priority
  rw [if_neg hq]
  rw [List.mem_filterMap]
  constructor
  · rintro ⟨p, hp, hmap⟩
    rcases Option.map_eq_some'.mp hmap with ⟨ms, hms, hmk⟩
    have hpos : pr.position = p := by rw [hmk.symm]
    have hmatch : pr.matching_stations = ms := by rw [hmk.symm]
    rw [hpos, hmatch]
    exact ⟨List.mem_range.mp hp, hms⟩
  · rintro ⟨hlt, hcol⟩
    refine ⟨pr.position, List.mem_range.mpr hlt, ?_⟩
    rw [hcol]
    rfl

/-- Unfolding search_and_analyze_fast when the guards pass. -/
theorem search_fast_eq (df : List Station) (s : List Char) (codes : List Nat)
    (hix kix : PosIndex) (kk : Bool) (hdf : df ≠ [])
    (hq : normalize_search_string s kk ≠ []) :
    search_and_analyze_fast df s codes hix kix kk
      = (List.range 20).flatMap (fun pos =>
          match fastCollect (if kk then kix else hix) df kk pos
              (normalize_search_string s kk) with
          | none => []
          | some lists =>
            fastRows codes pos (lists.zip (normalize_search_string s kk))) := by
  unfold search_and_analyze_fast
  simp only [if_neg hdf, if_neg hq]

/-- Unfolding search_and_analyze when the guards pass. -/
theorem search_slow_eq (df : List Station) (s : List Char) (codes : List Nat) (kk : Bool)
    (hdf : df ≠ []) (hq : normalize_search_string s kk ≠ []) :
    search_and_analyze df s codes kk
      = projectRows codes (find_character_positions_cross_with_priority df
          (if codes = [] then [] else df.filter (fun st => decide (st.pref_cd ∈ codes)))
          (normalize_search_string s kk) kk) := by
  unfold search_and_analyze
  simp only [if_neg hdf, if_neg hq]

theorem mkRow_char_position (st : Station) (ac : Char) (pos : Nat) (codes : List Nat) :
    (mkRow st ac pos codes).char_position = pos + 1 := rfl

/-- Membership in the projected rows of the corpus-scan path. -/
theorem mem_projectRows (codes : List Nat) (prs : List PositionResult) (r : ResultRow) :
    r ∈ projectRows codes prs
      ↔ ∃ pr ∈ prs, ∃ pc ∈ pr.matching_stations, ∃ h ∈ pc.2,
          r = mkRow h.station h.actual_char pr.position codes := by
  unfold projectRows
  simp only [List.mem_flatMap, List.mem_map]
  constructor
  · rintro ⟨pr, hpr, pc, hpc, h, hh, heq⟩
    exact ⟨pr, hpr, pc, hpc, h, hh, heq.symm⟩
  · rintro ⟨pr, hpr, pc, hpc, h, hh, heq⟩
    exact ⟨pr, hpr, pc, hpc, h, hh, heq.symm⟩

/-- Membership in the rows of one accepted offset of the indexed path. -/
theorem mem_fastRows (codes : List Nat) (pos : Nat) (pairs : List (List StationHit × Char))
    (r : ResultRow) :
    r ∈ fastRows codes pos pairs
      ↔ ∃ pr ∈ pairs, ∃ h ∈ pr.1,
          r = mkRow h.station ((h.station.station_name[pos]?).getD pr.2) pos codes := by
  unfold fastRows
  simp only [List.mem_flatMap, List.mem_map]
  constructor
  · rintro ⟨pr, hpr, h, hh, heq⟩
    exact ⟨pr, hpr, h, hh, heq.symm⟩
  · rintro ⟨pr, hpr, h, hh, heq⟩
    exact ⟨pr, hpr, h, hh, heq.symm⟩

/-- Every row of one accepted offset carries that offset one-based. -/
theorem fastRows_char_position (codes : List Nat) (pos : Nat)
    (pairs : List (List StationHit × Char)) (r : ResultRow)
    (h : r ∈ fastRows codes pos pairs) : r.char_position = pos + 1 := by
  rcases (mem_fastRows codes pos pairs r).mp h with ⟨pr, _, hh, _, heq⟩
  rw [heq]
  rfl

/-- Membership in the indexed search result, guards passing. -/
theorem mem_search_fast_iff (df : List Station) (s : List Char) (codes : List Nat)
    (hix kix : PosIndex) (kk : Bool) (r : ResultRow) (hdf : df ≠ [])
    (hq : normalize_search_string s kk ≠ []) :
    r ∈ search_and_analyze_fast df s codes hix kix kk
      ↔ ∃ pos, pos < 20 ∧ ∃ lists,
          fastCollect (if kk then kix else hix) df kk pos
              (normalize_search_string s kk) = some lists
            ∧ r ∈ fastRows codes pos (lists.zip (normalize_search_string s kk)) := by
  rw [search_fast_eq df s codes hix kix kk hdf hq]
  simp only [List.mem_flatMap, List.mem_range]
  constructor
  · rintro ⟨pos, hpos, hr⟩
    cases hF : fastCollect (if kk then kix else hix) df kk pos
        (normalize_search_string s kk) with
    | none =>
      rw [hF] at hr
      simp at hr
    | some lists =>
      rw [hF] at hr
      exact ⟨pos, hpos, lists, hF, hr⟩
  · rintro ⟨pos, hpos, lists, hF, hr⟩
    refine ⟨pos, hpos, ?_⟩
    rw [hF]
    exact hr

/-- Boolean-guard version of the filterMap/filter exchange. -/
theorem filterMap_if_eq_bool {α β : Type} (l : List α) (q : α → Bool) (f : α → β) :
    l.filterMap (fun a => if q a then some (f a) else none) = (l.filter q).map f := by
  induction l with
  | nil => rfl
  | cons a t ih =>
    by_cases h : q a = true <;> simp [List.filterMap_cons, List.filter_cons, h, ih]

/-- Membership in the corpus scan: a hit is a row of the scanned corpus
whose mode-normalized name matches, paired with its raw character. -/
theorem mem_find_all_iff (df : List Station) (c : Char) (pos : Nat) (kk : Bool)
    (h : StationHit) :
    h ∈ find_all_chars_at_position df c pos kk
      ↔ ∃ st ∈ df, (normName kk st)[pos]? = some (normChar kk c)
          ∧ h = ⟨st, (st.station_name[pos]?).getD c⟩ := by
  rw [find_all_chars_eq]
  simp only [List.mem_map, List.mem_filter, decide_eq_true_eq]
  constructor
  · rintro ⟨st, ⟨h1, h2⟩, h3⟩
    exact ⟨st, h1, h2, h3.symm⟩
  · rintro ⟨st, h1, h2, h3⟩
    exact ⟨st, ⟨h1, h2⟩, h3.symm⟩

/-- C8: normalization is idempotent, and a single normalization never
returns more than 20 characters. -/
theorem C8_normalize_idempotent_and_bounded (s : List Char) (kk : Bool) :
    normalize_search_string (normalize_search_string s kk) kk
        = normalize_search_string s kk
      ∧ (normalize_search_string s kk).length ≤ 20 :=
  ⟨normalize_search_string_idem s kk, normalize_length_le s kk⟩

/-- C2: index-scan equivalence.  The built bucket at (offset, char) is
exactly the list of row ids whose mode-normalized name has char at that
offset, in corpus order; and the full corpus scan
(find_all_chars_at_position) yields exactly the records obtained by
resolving through the table the bucket of the query-time-normalized
character, so the indexed path and the scan path agree on bucket
membership. -/
theorem C2_index_scan_equivalence (corpus : List Station) (kk : Bool) (pos : Nat)
    (c : Char) :
    create_station_index corpus kk pos c
        = ((corpus.enum.filter
              (fun r => decide ((normName kk r.2)[pos]? = some c))).map Prod.fst)
      ∧ (find_all_chars_at_position corpus c pos kk).map StationHit.station
          = (create_station_index corpus kk pos (normChar kk c)).filterMap
              (fun i => corpus[i]?) := by
  refine ⟨create_station_index_apply corpus kk pos c, ?_⟩
  have h1 : (find_all_chars_at_position corpus c pos kk).map StationHit.station
      = corpus.filter
          (fun st => decide ((normName kk st)[pos]? = some (normChar kk c))) := by
    rw [find_all_chars_eq, List.map_map]
    have h2 : (StationHit.station ∘ fun st =>
        (⟨st, (st.station_name[pos]?).getD c⟩ : StationHit)) = id := rfl
    rw [h2, List.map_id]
  have h3 : (fun i : Nat => corpus[i]?) = fun i : Nat => (corpus[i]?).bind some := by
    funext i
    cases corpus[i]? <;> rfl
  rw [h1, h3, create_station_index_apply]
  simp only [List.enum]
  rw [enumFilter_filterMap corpus
    (fun st => decide ((normName kk st)[pos]? = some (normChar kk c))) some corpus 0
    (List.drop_zero corpus)]
  rw [filterMap_if_eq_bool corpus _ (fun st => st)]
  have h4 : (fun st : Station => st) = id := rfl
  rw [h4, List.map_id]

/-- C5 counterexample: the claim says the builder indexes the name
normalized exactly as the Normalizer would (without truncation), stripping
characters outside the permitted alphabet.  The builder actually strips
nothing: for the one-record corpus whose name is the Latin letter A, the
folded bucket at (0, A) holds the record, although the record's
Normalizer-without-truncation image is empty, so no character of it sits
at offset 0. -/
theorem C5_counterexample :
    create_station_index [stLatinA] false 0 'A' = [0]
      ∧ normalizeNoTruncation stLatinA.station_name false = [] := by
  constructor
  · decide
  · decide

/-- C5 amended: for every record, the builder indexes the record's name
with only the mode's script folding applied (kata2hira in folded mode, the
raw name in preserved mode) — no alphabet stripping and no truncation: a
row id is in the bucket at (offset, char) iff that row's folded name has
char at that offset, over the full name length. -/
theorem C5_amended_builder_indexes_folded_name (corpus : List Station) (kk : Bool)
    (pos : Nat) (c : Char) (i : Nat) :
    i ∈ create_station_index corpus kk pos c
      ↔ ∃ s, corpus[i]? = some s ∧ (normName kk s)[pos]? = some c := by
  rw [create_station_index_apply]
  simp only [List.mem_map, List.mem_filter, decide_eq_true_eq]
  constructor
  · rintro ⟨⟨j, s⟩, ⟨hmem, hQ⟩, hfst⟩
    simp only at hfst hQ
    subst hfst
    exact ⟨s, List.mk_mem_enum_iff_getElem?.mp hmem, hQ⟩
  · rintro ⟨s, hget, hQ⟩
    exact ⟨(i, s), ⟨List.mk_mem_enum_iff_getElem?.mpr hget, hQ⟩, rfl⟩

/-- C6 counterexample: the claim says any two distinct records sharing
(name, pref_cd) are deduplicated to one entry of the combined list.  With
an empty selection, two distinct nationwide records sharing name and
prefecture are both kept, because the key set is built only from the
priority matches. -/
theorem C6_counterexample :
    priorityCombined [stDupX, stDupY] [] 'あ' 0 false
        = [⟨stDupX, 'あ'⟩, ⟨stDupY, 'あ'⟩]
      ∧ stDupX ≠ stDupY
      ∧ hitKey ⟨stDupX, 'あ'⟩ = hitKey ⟨stDupY, 'あ'⟩ := by
  refine ⟨by decide, by decide, by decide⟩

/-- C6 amended: the (name, pref_cd) deduplication acts only between the
priority group and the nationwide scan: a combined-list entry is either a
priority match, or a nationwide match whose key differs from every
priority match's key.  Records sharing a key inside one group are all
kept. -/
theorem C6_amended_dedup_between_groups (df_all df_selected : List Station) (c : Char)
    (pos : Nat) (kk : Bool) (h : StationHit) :
    h ∈ priorityCombined df_all df_selected c pos kk
      ↔ h ∈ find_all_chars_at_position df_selected c pos kk
        ∨ (h ∈ find_all_chars_at_position df_all c pos kk
            ∧ hitKey h ∉ (find_all_chars_at_position df_selected c pos kk).map hitKey) := by
  rw [priorityCombined_eq]
  simp [List.mem_append, List.mem_filter]

/-- C10: the indexed lookup is total and safe against arbitrary index
content.  Every returned hit comes from a bucket id that is a valid row,
whose name reaches the position, and whose character there folds to the
same character as the search character (ids out of range and short names
are silently skipped); conversely every bucket id passing those checks is
returned. -/
theorem C10_index_lookup_safety (ix : PosIndex) (c : Char) (pos : Nat)
    (df : List Station) :
    (∀ h ∈ find_stations_by_index ix c pos df,
        ∃ i ∈ ix pos c, df[i]? = some h.station
          ∧ h.station.station_name[pos]? = some h.actual_char
          ∧ kata2hira h.actual_char = kata2hira c)
      ∧ (∀ i ∈ ix pos c, ∀ st, df[i]? = some st →
          ∀ a, st.station_name[pos]? = some a → kata2hira a = kata2hira c →
            (⟨st, a⟩ : StationHit) ∈ find_stations_by_index ix c pos df) := by
  constructor
  · intro h hmem
    unfold find_stations_by_index at hmem
    rcases List.mem_filterMap.mp hmem with ⟨i, hi, hF⟩
    rcases Option.bind_eq_some.mp hF with ⟨st, hst, hG⟩
    rcases Option.bind_eq_some.mp hG with ⟨a, ha, hif⟩
    by_cases hk : kata2hira a = kata2hira c
    · rw [if_pos hk] at hif
      have hhit : h = ⟨st, a⟩ := (Option.some_inj.mp hif).symm
      subst hhit
      exact ⟨i, hi, hst, ha, hk⟩
    · rw [if_neg hk] at hif
      exact absurd hif (by simp)
  · intro i hi st hst a ha hk
    unfold find_stations_by_index
    apply List.mem_filterMap.mpr
    refine ⟨i, hi, ?_⟩
    simp [hst, ha, hk]

/-- Witness for C10 on a deliberately inconsistent index: the bucket holds
an out-of-range id 5 (skipped) and the valid id 0, whose record is
re-verified through the fold and returned. -/
theorem C10_index_lookup_safety_witness :
    (⟨stA13, 'あ'⟩ : StationHit)
        ∈ find_stations_by_index (fun _ _ => [5, 0]) 'ア' 0 [stA13]
      ∧ ∃ i ∈ (fun (_ : Nat) (_ : Char) => [5, 0]) 0 'ア',
          [stA13][i]? = some stA13
            ∧ stA13.station_name[0]? = some 'あ'
            ∧ kata2hira 'あ' = kata2hira 'ア' :=
  ⟨by decide,
    (C10_index_lookup_safety (fun _ _ => [5, 0]) 'ア' 0 [stA13]).1
      ⟨stA13, 'あ'⟩ (by decide)⟩

/-- C9: the search entry points encode the degenerate cases in the return
value instead of failing: an empty corpus, or a query that normalizes to
the empty string, yields the empty result on both the indexed and the
corpus-scan path (both functions are total). -/
theorem C9_no_throw_on_degenerate_input (df : List Station) (s : List Char)
    (codes : List Nat) (hix kix : PosIndex) (kk : Bool)
    (h : df = [] ∨ normalize_search_string s kk = []) :
    search_and_analyze_fast df s codes hix kix kk = []
      ∧ search_and_analyze df s codes kk = [] := by
  rcases h with h | h
  · subst h
    constructor
    · simp [search_and_analyze_fast]
    · simp [search_and_analyze]
  · constructor
    · unfold search_and_analyze_fast
      by_cases hdf : df = []
      · simp [hdf]
      · simp [hdf, h]
    · unfold search_and_analyze
      by_cases hdf : df = []
      · simp [hdf]
      · simp [hdf, h]

/-- Witness for C9 at the empty corpus. -/
theorem C9_no_throw_witness :
    (([] : List Station) = [] ∨ normalize_search_string [ 'あ' ] false = [])
      ∧ search_and_analyze_fast [] [ 'あ' ] [] emptyIndex emptyIndex false = []
      ∧ search_and_analyze [] [ 'あ' ] [] false = [] :=
  ⟨Or.inl rfl,
    C9_no_throw_on_degenerate_input [] [ 'あ' ] [] emptyIndex emptyIndex false
      (Or.inl rfl)⟩

/-- C4: no partial offsets.  On the corpus-scan path every accepted offset
result carries, for every query character in query order, a non-empty
combined list; on the indexed path, if some query character has an empty
lookup at an offset, no row is emitted for that offset. -/
theorem C4_no_partial_offsets (df_all df_selected df : List Station) (q s : List Char)
    (codes : List Nat) (hix kix : PosIndex) (kk : Bool) :
    (∀ pr ∈ find_character_positions_cross_with_priority df_all df_selected q kk,
        pr.matching_stations.map Prod.fst = q
          ∧ ∀ pc ∈ pr.matching_stations, pc.2 ≠ [])
      ∧ (∀ p, p < 20 →
          (∃ c ∈ normalize_search_string s kk,
              find_stations_by_index (if kk then kix else hix) (normChar kk c) p df
                = []) →
          ∀ r ∈ search_and_analyze_fast df s codes hix kix kk,
            r.char_position ≠ p + 1) := by
  constructor
  · intro pr hpr
    by_cases hq : q = []
    · subst hq
      simp [find_character_positions_cross_with_priority] at hpr
    · rcases (mem_cross_with_priority_iff df_all df_selected q kk pr hq).mp hpr
        with ⟨hlt, hcol⟩
      obtain ⟨h1, h2⟩ := collectChars_eq_some df_all df_selected kk pr.position q
        pr.matching_stations hcol
      refine ⟨?_, h2⟩
      rw [h1, List.map_map]
      have h3 : (Prod.fst ∘ fun c =>
          (c, priorityCombined df_all df_selected c pr.position kk)) = id := rfl
      rw [h3, List.map_id]
  · intro p hp hex r hr hcp
    by_cases hdf : df = []
    · simp [search_and_analyze_fast, hdf] at hr
    · by_cases hqs : normalize_search_string s kk = []
      · simp [search_and_analyze_fast, hdf, hqs] at hr
      · rcases (mem_search_fast_iff df s codes hix kix kk r hdf hqs).mp hr
          with ⟨pos, hpos, lists, hF, hrows⟩
        have hcp2 : r.char_position = pos + 1 := fastRows_char_position _ _ _ _ hrows
        have hpe : pos = p := by omega
        subst hpe
        have hsome : (fastCollect (if kk then kix else hix) df kk pos
            (normalize_search_string s kk)).isSome = true := by
          rw [hF]
          rfl
        have hall := (fastCollect_isSome_iff _ df kk pos _).mp hsome
        rcases hex with ⟨c, hc, hempty⟩
        exact (hall c hc) hempty

/-- Witness for C4 on a one-record corpus: the single accepted offset
result covers the whole query with non-empty lists. -/
theorem C4_no_partial_offsets_witness :
    (PositionResult.mk 0 [('あ', [⟨stA13, 'あ'⟩])])
        ∈ find_character_positions_cross_with_priority [stA13] [] [ 'あ' ] false
      ∧ ((PositionResult.mk 0 [('あ', [⟨stA13, 'あ'⟩])]).matching_stations.map
            Prod.fst = [ 'あ' ]
          ∧ ∀ pc ∈ (PositionResult.mk 0 [('あ', [⟨stA13, 'あ'⟩])]).matching_stations,
              pc.2 ≠ []) :=
  ⟨by decide,
    (C4_no_partial_offsets [stA13] [] [stA13] [ 'あ' ] [ 'あ' ] [] emptyIndex
        emptyIndex false).1 _ (by decide)⟩

/-- C3: all offsets 0..19 are evaluated and accepted or rejected
independently.  On the corpus-scan path the accepted offsets are exactly
the offsets below 20 at which every query character has a non-empty
combined list, in ascending order and without any bound on their number;
on the indexed path an offset appears among the emitted rows iff every
query character has a non-empty lookup there. -/
theorem C3_offsets_independent (df_all df_selected df : List Station) (q s : List Char)
    (codes : List Nat) (hix kix : PosIndex) (kk : Bool)
    (hq : q ≠ []) (hdf : df ≠ []) (hs : normalize_search_string s kk ≠ []) :
    ((find_character_positions_cross_with_priority df_all df_selected q kk).map
          PositionResult.position
        = (List.range 20).filter
            (fun p => decide (∀ c ∈ q,
              priorityCombined df_all df_selected c p kk ≠ [])))
      ∧ (∀ p, p < 20 →
          ((p + 1) ∈ (search_and_analyze_fast df s codes hix kix kk).map
              ResultRow.char_position
            ↔ ∀ c ∈ normalize_search_string s kk,
                find_stations_by_index (if kk then kix else hix) (normChar kk c) p df
                  ≠ [])) := by
  constructor
  · unfold find_character_positions_cross_with_priority
    rw [if_neg hq, filterMap_mk_positions]
    apply List.filter_congr
    intro p _
    by_cases h : ∀ c ∈ q, priorityCombined df_all df_selected c p kk ≠ []
    · rw [(collectChars_isSome_iff df_all df_selected kk p q).mpr h, decide_eq_true h]
    · have h2 : (collectChars df_all df_selected kk p q).isSome ≠ true :=
        fun hx => h ((collectChars_isSome_iff df_all df_selected kk p q).mp hx)
      rw [decide_eq_false h]
      exact Bool.eq_false_iff.mpr h2
  · intro p hp
    constructor
    · intro hmem c hc
      rcases List.mem_map.mp hmem with ⟨r, hr, hcp⟩
      rcases (mem_search_fast_iff df s codes hix kix kk r hdf hs).mp hr
        with ⟨pos, hpos, lists, hF, hrows⟩
      have hcp2 : r.char_position = pos + 1 := fastRows_char_position _ _ _ _ hrows
      have hpe : pos = p := by omega
      subst hpe
      have hsome : (fastCollect (if kk then kix else hix) df kk pos
          (normalize_search_string s kk)).isSome = true := by
        rw [hF]
        rfl
      exact (fastCollect_isSome_iff _ df kk pos _).mp hsome c hc
    · intro hall
      have hsome : (fastCollect (if kk then kix else hix) df kk p
          (normalize_search_string s kk)).isSome = true :=
        (fastCollect_isSome_iff _ df kk p _).mpr hall
      rcases Option.isSome_iff_exists.mp hsome with ⟨lists, hF⟩
      have hlists := fastCollect_eq_some _ df kk p _ lists hF
      rcases List.exists_cons_of_ne_nil hs with ⟨c0, rest, hq0⟩
      have hc0 : c0 ∈ normalize_search_string s kk := by
        rw [hq0]
        exact List.mem_cons_self _ _
      have hne := hall c0 hc0
      rcases List.exists_mem_of_ne_nil _ hne with ⟨h0, hh0⟩
      apply List.mem_map.mpr
      refine ⟨mkRow h0.station ((h0.station.station_name[p]?).getD c0) p codes,
        ?_, rfl⟩
      apply (mem_search_fast_iff df s codes hix kix kk _ hdf hs).mpr
      refine ⟨p, hp, lists, hF, ?_⟩
      apply (mem_fastRows codes p _ _).mpr
      refine ⟨(find_stations_by_index (if kk then kix else hix) (normChar kk c0) p df,
        c0), ?_, h0, hh0, rfl⟩
      rw [hlists, map_zip_self]
      exact List.mem_map_of_mem _ hc0

/-- Witness for C3 on a one-record corpus with the empty index. -/
theorem C3_offsets_independent_witness :
    (([ 'あ' ] : List Char) ≠ [] ∧ ([stA13] : List Station) ≠ []
        ∧ normalize_search_string [ 'あ' ] false ≠ [])
      ∧ (((find_character_positions_cross_with_priority [stA13] [] [ 'あ' ] false).map
            PositionResult.position
          = (List.range 20).filter
              (fun p => decide (∀ c ∈ ([ 'あ' ] : List Char),
                priorityCombined [stA13] [] c p false ≠ [])))
        ∧ (∀ p, p < 20 →
            ((p + 1) ∈ (search_and_analyze_fast [stA13] [ 'あ' ] [] emptyIndex
                emptyIndex false).map ResultRow.char_position
              ↔ ∀ c ∈ normalize_search_string [ 'あ' ] false,
                  find_stations_by_index emptyIndex (normChar false c) p [stA13]
                    ≠ []))) :=
  ⟨⟨by decide, by decide, by decide⟩,
    C3_offsets_independent [stA13] [] [stA13] [ 'あ' ] [ 'あ' ] [] emptyIndex
      emptyIndex false (by decide) (by decide) (by decide)⟩

/-- The stations of the corpus scan are the matching rows in corpus
order. -/
theorem map_station_find_all (df : List Station) (c : Char) (pos : Nat) (kk : Bool) :
    (find_all_chars_at_position df c pos kk).map StationHit.station
      = df.filter (fun st => decide ((normName kk st)[pos]? = some (normChar kk c))) := by
  rw [find_all_chars_eq, List.map_map]
  have hcomp : (StationHit.station ∘ fun st =>
      (⟨st, (st.station_name[pos]?).getD c⟩ : StationHit)) = id := rfl
  rw [hcomp, List.map_id]

/-- C1 counterexample: on the indexed fast path the combined list is not
reordered by priority.  Corpus = [あ in prefecture 27, あ in prefecture 13],
priority codes = [13], folded query あ: the emitted combined list at offset
0 puts the nationwide (fallback) record of prefecture 27 before the
priority record of prefecture 13, so priority matches do not precede
fallback matches on the fast path. -/
theorem C1_counterexample :
    search_and_analyze_fast [stA27, stA13] [ 'あ' ] [13]
        (create_station_index [stA27, stA13] false)
        (create_station_index [stA27, stA13] true) false
      = [mkRow stA27 'あ' 0 [13], mkRow stA13 'あ' 0 [13]]
      ∧ (mkRow stA27 'あ' 0 [13]).search_scope = false
      ∧ (mkRow stA13 'あ' 0 [13]).search_scope = true := by
  refine ⟨by decide, by decide, by decide⟩

/-- C1 amended: on the corpus-scan path the combined list is the priority
matches (records in the selected prefecture codes) followed by the
fallback matches (records outside them), each group in corpus-scan order,
and no record occurs twice when the corpus rows are distinct.  On the
indexed fast path there is no such reordering: the lookup equals the plain
corpus scan, whose order is the index insertion (corpus) order, and the
bucket ids are strictly increasing, so no record id occurs twice. -/
theorem C1_amended_priority_ordering (df : List Station) (codes : List Nat)
    (s : List Char) (c : Char) (pos : Nat) (kk : Bool) (hnd : df.Nodup)
    (hc : c ∈ normalize_search_string s kk) :
    (∃ prio fb,
        priorityCombined df (df.filter (fun st => decide (st.pref_cd ∈ codes))) c pos kk
            = prio ++ fb
          ∧ (∀ h ∈ prio, h.station.pref_cd ∈ codes)
          ∧ (∀ h ∈ fb, h.station.pref_cd ∉ codes)
          ∧ List.Sublist (prio.map StationHit.station) df
          ∧ List.Sublist (fb.map StationHit.station) df
          ∧ (prio ++ fb).Nodup)
      ∧ find_stations_by_index (create_station_index df kk) (normChar kk c) pos df
          = find_all_chars_at_position df c pos kk
      ∧ List.Pairwise (· < ·) (create_station_index df kk pos c) := by
  have hfold : kk = false → kata2hira c = c := by
    intro hk
    subst hk
    exact kata2hira_fixed_of_kept (mem_normalize_folded hc)
  have hinj : Function.Injective
      (fun st => (⟨st, (st.station_name[pos]?).getD c⟩ : StationHit)) := by
    intro a b hab
    exact congrArg StationHit.station hab
  refine ⟨?_, ?_, ?_⟩
  · refine ⟨find_all_chars_at_position
        (df.filter (fun st => decide (st.pref_cd ∈ codes))) c pos kk,
      (find_all_chars_at_position df c pos kk).filter
        (fun s2 => decide (hitKey s2 ∉
          (find_all_chars_at_position
            (df.filter (fun st => decide (st.pref_cd ∈ codes))) c pos kk).map hitKey)),
      priorityCombined_eq df _ c pos kk, ?_, ?_, ?_, ?_, ?_⟩
    · intro h hh
      rcases (mem_find_all_iff _ c pos kk h).mp hh with ⟨st, hst, hpred, heq⟩
      have hin : st.pref_cd ∈ codes := by
        have h2 := List.mem_filter.mp hst
        simpa using h2.2
      rw [heq]
      exact hin
    · intro h hh
      rcases List.mem_filter.mp hh with ⟨hall, hkey⟩
      rcases (mem_find_all_iff df c pos kk h).mp hall with ⟨st, hst, hpred, heq⟩
      intro hin
      have hstc : st.pref_cd ∈ codes := by
        rw [heq] at hin
        exact hin
      have hsel : st ∈ df.filter (fun st => decide (st.pref_cd ∈ codes)) :=
        List.mem_filter.mpr ⟨hst, by simpa using hstc⟩
      have hmem2 : h ∈ find_all_chars_at_position
          (df.filter (fun st => decide (st.pref_cd ∈ codes))) c pos kk :=
        (mem_find_all_iff _ c pos kk h).mpr ⟨st, hsel, hpred, heq⟩
      simp only [decide_eq_true_eq] at hkey
      exact hkey (List.mem_map_of_mem hitKey hmem2)
    · rw [map_station_find_all]
      exact (List.filter_sublist _).trans (List.filter_sublist _)
    · have h1 : List.Sublist
          ((find_all_chars_at_position df c pos kk).filter
            (fun s2 => decide (hitKey s2 ∉
              (find_all_chars_at_position
                (df.filter (fun st => decide (st.pref_cd ∈ codes))) c pos kk).map
                  hitKey)))
          (find_all_chars_at_position df c pos kk) := List.filter_sublist _
      have h2 := h1.map StationHit.station
      have h3 : List.Sublist
          ((find_all_chars_at_position df c pos kk).map StationHit.station) df := by
        rw [map_station_find_all]
        exact List.filter_sublist df
      exact h2.trans h3
    · apply List.nodup_append.mpr
      refine ⟨?_, ?_, ?_⟩
      · rw [find_all_chars_eq]
        exact List.Nodup.map hinj
          (List.Nodup.filter _ (List.Nodup.filter _ hnd))
      · apply List.Nodup.filter
        rw [find_all_chars_eq]
        exact List.Nodup.map hinj (List.Nodup.filter _ hnd)
      · intro x hxp hxf
        rcases List.mem_filter.mp hxf with ⟨hxall, hxkey⟩
        simp only [decide_eq_true_eq] at hxkey
        exact hxkey (List.mem_map_of_mem hitKey hxp)
  · rw [normChar_fixed hc]
    exact find_stations_by_index_built df kk c pos hfold
  · rw [create_station_index_apply]
    have h1 : List.Sublist
        (df.enum.filter (fun r => decide ((normName kk r.2)[pos]? = some c)))
        df.enum := List.filter_sublist _
    have h2 := h1.map Prod.fst
    have h3 : df.enum.map Prod.fst = List.range' 0 df.length := by
      simp [List.enum]
    rw [h3] at h2
    exact List.Pairwise.sublist h2 (List.pairwise_lt_range' 0 df.length)

/-- Witness for C1 amended on a two-record corpus with one selected
prefecture. -/
theorem C1_amended_priority_ordering_witness :
    (([stA27, stA13] : List Station).Nodup
        ∧ 'あ' ∈ normalize_search_string [ 'あ' ] false)
      ∧ ((∃ prio fb,
          priorityCombined [stA27, stA13]
              ([stA27, stA13].filter (fun st => decide (st.pref_cd ∈ [13]))) 'あ' 0 false
              = prio ++ fb
            ∧ (∀ h ∈ prio, h.station.pref_cd ∈ [13])
            ∧ (∀ h ∈ fb, h.station.pref_cd ∉ [13])
            ∧ List.Sublist (prio.map StationHit.station) [stA27, stA13]
            ∧ List.Sublist (fb.map StationHit.station) [stA27, stA13]
            ∧ (prio ++ fb).Nodup)
        ∧ find_stations_by_index (create_station_index [stA27, stA13] false)
              (normChar false 'あ') 0 [stA27, stA13]
            = find_all_chars_at_position [stA27, stA13] 'あ' 0 false
        ∧ List.Pairwise (· < ·) (create_station_index [stA27, stA13] false 0 'あ')) :=
  ⟨⟨by decide, by decide⟩,
    C1_amended_priority_ordering [stA27, stA13] [13] [ 'あ' ] 'あ' 0 false
      (by decide) (by decide)⟩

/-- Soundness of one scan hit: the record's raw name holds the hit's
actual character at the offset, and that character normalizes, as a
one-character string under the active mode, back to the search
character. -/
theorem find_all_hit_sound (df : List Station) (c : Char) (pos : Nat) (kk : Bool)
    (h : StationHit) (hmem : h ∈ find_all_chars_at_position df c pos kk)
    (hcq : normChar kk c = c)
    (hkept : (if kk then isMixedKept c else isHiraKanji c) = true) :
    h.station.station_name[pos]? = some h.actual_char
      ∧ normalize_search_string [ h.actual_char ] kk = [c] := by
  rcases (mem_find_all_iff df c pos kk h).mp hmem with ⟨st, hst, hpred, heq⟩
  rw [hcq] at hpred
  subst heq
  cases kk
  · simp only [normName, Bool.false_eq_true, if_false, List.getElem?_map] at hpred
    cases ha : st.station_name[pos]? with
    | none =>
      rw [ha] at hpred
      simp at hpred
    | some a =>
      rw [ha] at hpred
      simp only [Option.map_some'] at hpred
      have hac : kata2hira a = c := Option.some_inj.mp hpred
      have hkc : isHiraKanji c = true := by simpa using hkept
      constructor
      · simp [ha]
      · simp [normalize_search_string, hac, hkc, ha]
  · simp only [normName, if_true] at hpred
    have hkc : isMixedKept c = true := by simpa using hkept
    constructor
    · simp [hpred]
    · simp [normalize_search_string, hpred, hkc]

/-- C7: pipeline soundness.  Every row emitted by either search path at
one-based offset p carries, as its displayed character, the record's own
raw character a at zero-based offset p-1, and a normalizes under the
active mode (as a one-character string) to some character of the
normalized query (the matched query character).  The fast path is taken
with the indexes built from the same table, as in the pipeline. -/
theorem C7_row_soundness (df : List Station) (s : List Char) (codes : List Nat)
    (kk : Bool) (r : ResultRow)
    (hr : r ∈ search_and_analyze df s codes kk
        ∨ r ∈ search_and_analyze_fast df s codes (create_station_index df false)
            (create_station_index df true) kk) :
    ∃ qc ∈ normalize_search_string s kk, ∃ a : Char,
      r.station_name[r.char_position - 1]? = some a
        ∧ r.search_char = a
        ∧ normalize_search_string [ a ] kk = [qc] := by
  by_cases hdf : df = []
  · rcases hr with hr | hr
    · simp [search_and_analyze, hdf] at hr
    · simp [search_and_analyze_fast, hdf] at hr
  by_cases hqs : normalize_search_string s kk = []
  · rcases hr with hr | hr
    · simp [search_and_analyze, hdf, hqs] at hr
    · simp [search_and_analyze_fast, hdf, hqs] at hr
  rcases hr with hr | hr
  · rw [search_slow_eq df s codes kk hdf hqs] at hr
    rcases (mem_projectRows codes _ r).mp hr with ⟨pr, hpr, pc, hpc, h, hh, heq⟩
    rcases (mem_cross_with_priority_iff df _ _ kk pr hqs).mp hpr with ⟨hlt, hcol⟩
    obtain ⟨hms, _⟩ := collectChars_eq_some df _ kk pr.position _ _ hcol
    rw [hms] at hpc
    rcases List.mem_map.mp hpc with ⟨c, hcm, hpc2⟩
    have hh2 : h ∈ priorityCombined df
        (if codes = [] then []
         else df.filter (fun st => decide (st.pref_cd ∈ codes))) c pr.position kk := by
      rw [← hpc2] at hh
      exact hh
    have hkq : (if kk then isMixedKept c else isHiraKanji c) = true := by
      cases kk
      · simpa using mem_normalize_folded hcm
      · simpa using mem_normalize_mixed hcm
    rw [priorityCombined_eq] at hh2
    have hsound : h.station.station_name[pr.position]? = some h.actual_char
        ∧ normalize_search_string [ h.actual_char ] kk = [c] := by
      rcases List.mem_append.mp hh2 with hpm | hfm
      · exact find_all_hit_sound _ c pr.position kk h hpm (normChar_fixed hcm) hkq
      · exact find_all_hit_sound df c pr.position kk h
          (List.mem_filter.mp hfm).1 (normChar_fixed hcm) hkq
    refine ⟨c, hcm, h.actual_char, ?_, ?_, hsound.2⟩
    · subst heq
      simpa using hsound.1
    · subst heq
      rfl
  · rcases (mem_search_fast_iff df s codes _ _ kk r hdf hqs).mp hr
      with ⟨pos, hpos, lists, hF, hrows⟩
    have hlists := fastCollect_eq_some _ df kk pos _ lists hF
    rw [hlists, map_zip_self] at hrows
    rcases (mem_fastRows codes pos _ r).mp hrows with ⟨pr2, hpr2, h, hh, heq⟩
    rcases List.mem_map.mp hpr2 with ⟨c, hcm, hpr3⟩
    have hh2 : h ∈ find_stations_by_index
        (if kk then create_station_index df true else create_station_index df false)
        (normChar kk c) pos df := by
      rw [← hpr3] at hh
      exact hh
    have hkq : (if kk then isMixedKept c else isHiraKanji c) = true := by
      cases kk
      · simpa using mem_normalize_folded hcm
      · simpa using mem_normalize_mixed hcm
    have hfold : kk = false → kata2hira c = c := by
      intro hk
      subst hk
      exact kata2hira_fixed_of_kept (mem_normalize_folded hcm)
    have hixeq : (if kk then create_station_index df true
        else create_station_index df false) = create_station_index df kk := by
      cases kk <;> rfl
    rw [hixeq, normChar_fixed hcm,
      find_stations_by_index_built df kk c pos hfold] at hh2
    have hsound := find_all_hit_sound df c pos kk h hh2 (normChar_fixed hcm) hkq
    have hgd : (h.station.station_name[pos]?).getD pr2.2 = h.actual_char := by
      rw [hsound.1]
      rfl
    refine ⟨c, hcm, h.actual_char, ?_, ?_, hsound.2⟩
    · subst heq
      simpa using hsound.1
    · subst heq
      simpa using hgd

/-- Witness for C7 on a one-record corpus, corpus-scan path. -/
theorem C7_row_soundness_witness :
    (mkRow stA13 'あ' 0 [] ∈ search_and_analyze [stA13] [ 'あ' ] [] false
        ∨ mkRow stA13 'あ' 0 [] ∈ search_and_analyze_fast [stA13] [ 'あ' ] []
            (create_station_index [stA13] false) (create_station_index [stA13] true)
            false)
      ∧ ∃ qc ∈ normalize_search_string [ 'あ' ] false, ∃ a : Char,
          (mkRow stA13 'あ' 0 []).station_name[(mkRow stA13 'あ' 0 []).char_position
              - 1]? = some a
            ∧ (mkRow stA13 'あ' 0 []).search_char = a
            ∧ normalize_search_string [ a ] false = [qc] :=
  ⟨Or.inl (by decide),
    C7_row_soundness [stA13] [ 'あ' ] [] false (mkRow stA13 'あ' 0 [])
      (Or.inl (by decide))⟩
